import Mathlib

/-!
Verification of the qwaviz wavefunction-algebra core.

This file shallowly embeds the core of the repository (the `framework`
module tree: `core/domain/domain_sect_1d.rs`, `core/domain/finite_domains.rs`,
the `Field` trait of `fields.rs`, `braket/operations.rs`, `braket/wf_ket.rs`,
`braket/wf_bra.rs`, `potential/potential.rs`, `discrete_system.rs`, and the
concrete systems) and proves the frozen claims about it.

Modelling conventions:
* `f32` values are modelled as exact rationals `ℚ`.  All claims treated here
  are about control flow, bound selection (min/max), domain combination and
  exact algebra, none of which depend on rounding.  `f32::INFINITY` (the
  `Domain::last()` sentinel of the `impl Domain for f32`) is modelled by the
  rational sentinel `f32Last = 2^128`, which exceeds every finite `f32`
  value; no claim proved here relies on the absorbing arithmetic of the
  actual infinity.
* `num_complex::Complex32` is modelled as a pair of rationals with the exact
  complex ring operations.
* `i32` (the `Domain` of `FiniteSubDomain`) is modelled as `ℤ`; the
  `i32::MIN`/`i32::MAX` sentinels are the exact values `-2^31`/`2^31 - 1`.
* The transcendental eigenstate formulas of the concrete potentials
  (`infinite_square_well.rs`, `two_state.rs`) are modelled over `ℝ`/`ℂ` in a
  separate section.
-/

set_option maxRecDepth 8000

namespace Qwaviz

/-! ## Field values: `num_complex::Complex32`, modelled with exact rationals

The repository's `Field` trait (`fields.rs`) demands ring operations plus
`zero`, `one`, `inv`, `is_zero` and `conjugate`.  The `impl Field for
Complex32` uses the complex ring operations and `conj`; the
`impl Field for f32` declares `conjugate(self) = self`. -/

/-- Model of `num_complex::Complex32`: a complex number with exact rational
components. -/
structure Complex32 where
  re : ℚ
  im : ℚ
deriving DecidableEq

instance : Zero Complex32 := ⟨⟨0, 0⟩⟩

instance : One Complex32 := ⟨⟨1, 0⟩⟩

instance : Add Complex32 := ⟨fun a b => ⟨a.re + b.re, a.im + b.im⟩⟩

instance : Neg Complex32 := ⟨fun a => ⟨-a.re, -a.im⟩⟩

instance : Sub Complex32 := ⟨fun a b => ⟨a.re - b.re, a.im - b.im⟩⟩

instance : Mul Complex32 :=
  ⟨fun a b => ⟨a.re * b.re - a.im * b.im, a.re * b.im + a.im * b.re⟩⟩

/-- `Field::conjugate` for `Complex32` (`self.conj()`). -/
def Complex32.conjugate (z : Complex32) : Complex32 := ⟨z.re, -z.im⟩

/-- `Field::conjugate` for the real field `f32` is the identity
(`fields.rs`, `impl Field for f32`). -/
def realConjugate (x : ℚ) : ℚ := x

instance : AddCommMonoid Complex32 where
  add_assoc a b c := by
    obtain ⟨ar, ai⟩ := a
    obtain ⟨br, bi⟩ := b
    obtain ⟨cr, ci⟩ := c
    show Complex32.mk (ar + br + cr) (ai + bi + ci) =
      Complex32.mk (ar + (br + cr)) (ai + (bi + ci))
    rw [Complex32.mk.injEq]
    constructor <;> ring
  zero_add a := by
    obtain ⟨ar, ai⟩ := a
    show Complex32.mk (0 + ar) (0 + ai) = Complex32.mk ar ai
    rw [Complex32.mk.injEq]
    constructor <;> ring
  add_zero a := by
    obtain ⟨ar, ai⟩ := a
    show Complex32.mk (ar + 0) (ai + 0) = Complex32.mk ar ai
    rw [Complex32.mk.injEq]
    constructor <;> ring
  add_comm a b := by
    obtain ⟨ar, ai⟩ := a
    obtain ⟨br, bi⟩ := b
    show Complex32.mk (ar + br) (ai + bi) = Complex32.mk (br + ar) (bi + ai)
    rw [Complex32.mk.injEq]
    constructor <;> ring
  nsmul := nsmulRec

/-- `WFSignature::mul_to_codomain` for `WF1Space1Time`
(`wf_1s_1t.rs`): `a * b` where `a : f32` scales the complex value `b`
componentwise (the `Mul<Complex32> for f32` of `num_complex`). -/
def mul_to_codomain (a : ℚ) (b : Complex32) : Complex32 := ⟨a * b.re, a * b.im⟩

/-- `Iterator::reduce` followed by `unwrap_or_else(dflt)`: an empty iterator
gives `dflt`, otherwise the elements are folded left with `f` starting from
the first element. -/
def listReduce {α : Type} (f : α → α → α) (dflt : α) : List α → α
  | [] => dflt
  | a :: rest => rest.foldl f a

/-! ## `SubDomain1D` (`core/domain/domain_sect_1d.rs`)

Generic over the `Domain` type `D`, as in the source (`SubDomain1D<D: Domain>`).
The trait `Domain` requires `PartialOrd + Add + Sub` plus the
`first`/`last`/`zero` sentinels; the shipped instances (`f32`, `i32`) are
totally ordered. -/

/-- `SubDomain1D<D>`: a bounded, steppable one-dimensional subdomain. -/
structure SubDomain1D (D : Type) where
  lower : D
  upper : D
  step_size : D
deriving DecidableEq

/-- `SubDomain::contains`: `self.lower <= x && x <= self.upper`. -/
def SubDomain1D.contains {D : Type} [LE D] (d : SubDomain1D D) (x : D) : Prop :=
  d.lower ≤ x ∧ x ≤ d.upper

instance {D : Type} [LinearOrder D] (d : SubDomain1D D) (x : D) :
    Decidable (d.contains x) :=
  inferInstanceAs (Decidable (d.lower ≤ x ∧ x ≤ d.upper))

/-- `impl Add for SubDomain1D` (union rule), written with the source's
branch structure. -/
def SubDomain1D.add {D : Type} [LinearOrder D] (a b : SubDomain1D D) :
    SubDomain1D D where
  lower := if a.lower < b.lower then a.lower else b.lower
  upper := if a.upper > b.upper then a.upper else b.upper
  step_size := if a.step_size < b.step_size then a.step_size else b.step_size

/-- `impl Mul for SubDomain1D` (intersection rule), written with the source's
branch structure. -/
def SubDomain1D.mul {D : Type} [LinearOrder D] (a b : SubDomain1D D) :
    SubDomain1D D where
  lower := if a.lower > b.lower then a.lower else b.lower
  upper := if a.upper < b.upper then a.upper else b.upper
  step_size := if a.step_size < b.step_size then a.step_size else b.step_size

instance {D : Type} [LinearOrder D] : Add (SubDomain1D D) := ⟨SubDomain1D.add⟩

instance {D : Type} [LinearOrder D] : Mul (SubDomain1D D) := ⟨SubDomain1D.mul⟩

/-- `SubDomain::translate`: shift both bounds, keep the step. -/
def SubDomain1D.translate {D : Type} [Add D] (d : SubDomain1D D) (offset : D) :
    SubDomain1D D where
  lower := d.lower + offset
  upper := d.upper + offset
  step_size := d.step_size

/-- `SubDomain::with_step_size`: rebind only the step. -/
def SubDomain1D.with_step_size {D : Type} (d : SubDomain1D D) (s : D) :
    SubDomain1D D where
  lower := d.lower
  upper := d.upper
  step_size := s

/-- `Domain::first()` for `f32`: `f32::NEG_INFINITY`, modelled by a rational
sentinel below every finite `f32` value. -/
def f32First : ℚ := -(2 ^ 128)

/-- `Domain::last()` for `f32`: `f32::INFINITY`, modelled by a rational
sentinel above every finite `f32` value. -/
def f32Last : ℚ := 2 ^ 128

/-- `Domain::zero()` for `f32`. -/
def f32Zero : ℚ := 0

/-- `SubDomain::all()` at the shipped `Domain = f32` instance:
`[first(), last()]` with step `last()`. -/
def SubDomain1D.all : SubDomain1D ℚ := ⟨f32First, f32Last, f32Last⟩

/-- `SubDomain::none()` at the shipped `Domain = f32` instance:
`[zero(), zero()]` with step `last()`. -/
def SubDomain1D.none : SubDomain1D ℚ := ⟨f32Zero, f32Zero, f32Last⟩

/-! ### Iteration (`SubDomain1DIter`)

`next()` returns `None` when `value > upper`, else yields `value` and
advances by `step_size`.  The loop is embedded with an explicit fuel that is
computed to be sufficient; `SubDomain1D.points_loop` below proves that the
resulting list satisfies exactly the iterator's defining recurrence.  When
`step_size ≤ 0` and `lower ≤ upper` the source iterator never terminates;
the fuel truncates that case to a single yielded point, and every theorem
below that inspects more than emptiness of the iteration carries a
`0 < step_size` hypothesis. -/

/-- One loop unfolding of `SubDomain1DIter::next` per unit of fuel. -/
def iterPointsFuel : ℕ → ℚ → ℚ → ℚ → List ℚ
  | 0, _, _, _ => []
  | n + 1, upper, step, value =>
    if value > upper then [] else value :: iterPointsFuel n upper step (value + step)

/-- Fuel sufficient to drive `SubDomain1DIter` to completion (when it
terminates): one more than the number of full steps that fit in the
interval. -/
def SubDomain1D.sampleFuel (d : SubDomain1D ℚ) : ℕ :=
  if d.lower > d.upper then 0
  else if 0 < d.step_size then (⌊(d.upper - d.lower) / d.step_size⌋).toNat + 1
  else 1

/-- The full sample sequence yielded by `SubDomain1D::iter()`. -/
def SubDomain1D.points (d : SubDomain1D ℚ) : List ℚ :=
  iterPointsFuel d.sampleFuel d.upper d.step_size d.lower

/-! ## `FiniteSubDomain` (`core/domain/finite_domains.rs`)

An inclusive `i32` index range, iterated via `SubDomain1DIter::<i32>` with
step `1`; modelled over `ℤ`. -/

/-- `FiniteSubDomain`: `{min_idx..=max_idx}`. -/
structure FiniteSubDomain where
  min_idx : ℤ
  max_idx : ℤ
deriving DecidableEq

/-- `SubDomain::contains` for `FiniteSubDomain`. -/
def FiniteSubDomain.contains (d : FiniteSubDomain) (x : ℤ) : Prop :=
  d.min_idx ≤ x ∧ x ≤ d.max_idx

instance (d : FiniteSubDomain) (x : ℤ) : Decidable (d.contains x) :=
  inferInstanceAs (Decidable (d.min_idx ≤ x ∧ x ≤ d.max_idx))

/-- `FiniteSubDomain::all()`: `{i32::MIN..=i32::MAX}` exactly. -/
def FiniteSubDomain.all : FiniteSubDomain := ⟨-(2 ^ 31), 2 ^ 31 - 1⟩

/-- `FiniteSubDomain::none()`: `{0..=0}`. -/
def FiniteSubDomain.none : FiniteSubDomain := ⟨0, 0⟩

/-- `FiniteSubDomain::step_size()`: always `1`. -/
def FiniteSubDomain.step_size (_ : FiniteSubDomain) : ℤ := 1

/-- One loop unfolding of `SubDomain1DIter::<i32>::next` (step `1`) per unit
of fuel. -/
def iterPointsIntFuel : ℕ → ℤ → ℤ → List ℤ
  | 0, _, _ => []
  | n + 1, upper, value =>
    if value > upper then [] else value :: iterPointsIntFuel n upper (value + 1)

/-- The sample sequence yielded by `FiniteSubDomain::iter()`. -/
def FiniteSubDomain.points (d : FiniteSubDomain) : List ℤ :=
  iterPointsIntFuel (d.max_idx + 1 - d.min_idx).toNat d.max_idx d.min_idx

/-! ## `WFOperation` (`braket/operations.rs`)

The lazily-evaluated wavefunction expression tree, at the shipped signature
`WF1Space1Time` (`Space = Time = f32`, `Out = Complex32`), with `f32`
modelled as `ℚ`. -/

/-- `WFOperation<WF1Space1Time>`: the wavefunction expression tree.  The
`Arc` shared-ownership wrappers of the source carry no mathematical
content and are elided. -/
inductive WFOperation : Type where
  | func (f : ℚ → ℚ → Complex32)
  | sum (fs : List WFOperation)
  | weightedSum (summands : List (Complex32 × WFOperation))
  | sub (f g : WFOperation)
  | scale (c : Complex32) (f : WFOperation)
  | neg (f : WFOperation)
  | adjoint (f : WFOperation)
  | translateSpace (dx : ℚ) (f : WFOperation)
  | translateTime (dt : ℚ) (f : WFOperation)

/-- `WFOperation::eval` (`operations.rs`): recursively evaluate the tree.
`Sum` and `WeightedSum` fold their children left-to-right starting from the
field's zero, exactly as the source's `.map(...).fold(zero, |a, b| a + b)`;
`List.attach` is used only to supply the termination measure. -/
def WFOperation.eval : WFOperation → ℚ → ℚ → Complex32
  | .func f, x, t => f x t
  | .sum fs, x, t =>
    (fs.attach.map (fun g => g.1.eval x t)).foldl (fun a b => a + b) 0
  | .weightedSum summands, x, t =>
    (summands.attach.map (fun p => p.1.1 * p.1.2.eval x t)).foldl (fun a b => a + b) 0
  | .sub f g, x, t => f.eval x t - g.eval x t
  | .scale c f, x, t => c * f.eval x t
  | .neg f, x, t => -f.eval x t
  | .adjoint f, x, t => (f.eval x t).conjugate
  | .translateSpace dx f, x, t => f.eval (x - dx) t
  | .translateTime dt f, x, t => f.eval x (t - dt)
termination_by o _ _ => sizeOf o
decreasing_by
  all_goals simp_wf
  all_goals try omega
  · have := List.sizeOf_lt_of_mem g.2
    omega
  · have := List.sizeOf_lt_of_mem p.2
    obtain ⟨⟨c, f⟩, hp⟩ := p
    simp at *
    omega

/-! ## `WFKet` (`braket/wf_ket.rs`) and `WFBra` (`braket/wf_bra.rs`) -/

/-- `WFKet<WF1Space1Time>`: a ket pairing an operation tree with a
subdomain. -/
structure WFKet where
  wavefunction : WFOperation
  subdomain : SubDomain1D ℚ

/-- `WFBra<WF1Space1Time>`: a bra pairing an operation tree with a
subdomain. -/
structure WFBra where
  wavefunction : WFOperation
  subdomain : SubDomain1D ℚ

/-- `Wavefunction::f` for `WFKet`: evaluate the tree inside the subdomain,
the field's zero outside. -/
def WFKet.f (k : WFKet) (x t : ℚ) : Complex32 :=
  if k.subdomain.contains x then k.wavefunction.eval x t else 0

/-- `Wavefunction::p` for `WFKet`: `conj(f)·f` inside the subdomain, zero
outside. -/
def WFKet.p (k : WFKet) (x t : ℚ) : Complex32 :=
  if k.subdomain.contains x then (k.f x t).conjugate * k.f x t else 0

/-- `Wavefunction::translate_space` for `WFKet`. -/
def WFKet.translate_space (k : WFKet) (offset : ℚ) : WFKet where
  wavefunction := .translateSpace offset k.wavefunction
  subdomain := k.subdomain.translate offset

/-- `Wavefunction::translate_time` for `WFKet`. -/
def WFKet.translate_time (k : WFKet) (offset : ℚ) : WFKet where
  wavefunction := .translateTime offset k.wavefunction
  subdomain := k.subdomain

/-- `VectorSpace::zero` for `WFKet`: the zero function over
`SubDomain::all()`. -/
def WFKet.zero : WFKet where
  wavefunction := .func (fun _ _ => 0)
  subdomain := SubDomain1D.all

/-- `VectorSpace::scale` for `WFKet`. -/
def WFKet.scale (k : WFKet) (c : Complex32) : WFKet where
  wavefunction := .scale c k.wavefunction
  subdomain := k.subdomain

/-- `VectorSpace::sum` for `WFKet`: a `Sum` node over all operands; the
subdomains are reduced with `+` (union), with `SubDomain::none()` for an
empty input (`unwrap_or_else(S::SubDom::none)`). -/
def WFKet.sum (vectors : List WFKet) : WFKet where
  wavefunction := .sum (vectors.map (fun v => v.wavefunction))
  subdomain := listReduce (fun a b => a + b) SubDomain1D.none
    (vectors.map (fun v => v.subdomain))

/-- `VectorSpace::weighted_sum` for `WFKet`. -/
def WFKet.weighted_sum (summands : List (Complex32 × WFKet)) : WFKet where
  wavefunction := .weightedSum (summands.map (fun p => (p.1, p.2.wavefunction)))
  subdomain := listReduce (fun a b => a + b) SubDomain1D.none
    (summands.map (fun p => p.2.subdomain))

/-- `Wavefunction::f` for `WFBra`. -/
def WFBra.f (b : WFBra) (x t : ℚ) : Complex32 :=
  if b.subdomain.contains x then b.wavefunction.eval x t else 0

/-- `Wavefunction::p` for `WFBra`. -/
def WFBra.p (b : WFBra) (x t : ℚ) : Complex32 :=
  if b.subdomain.contains x then (b.f x t).conjugate * b.f x t else 0

/-- `Wavefunction::translate_space` for `WFBra`. -/
def WFBra.translate_space (b : WFBra) (offset : ℚ) : WFBra where
  wavefunction := .translateSpace offset b.wavefunction
  subdomain := b.subdomain.translate offset

/-- `Wavefunction::translate_time` for `WFBra`. -/
def WFBra.translate_time (b : WFBra) (offset : ℚ) : WFBra where
  wavefunction := .translateTime offset b.wavefunction
  subdomain := b.subdomain

/-- `VectorSpace::zero` for `WFBra`: the zero function over
`SubDomain::none()`. -/
def WFBra.zero : WFBra where
  wavefunction := .func (fun _ _ => 0)
  subdomain := SubDomain1D.none

/-- `VectorSpace::scale` for `WFBra`. -/
def WFBra.scale (b : WFBra) (c : Complex32) : WFBra where
  wavefunction := .scale c b.wavefunction
  subdomain := b.subdomain

/-- `VectorSpace::sum` for `WFBra`. -/
def WFBra.sum (vectors : List WFBra) : WFBra where
  wavefunction := .sum (vectors.map (fun v => v.wavefunction))
  subdomain := listReduce (fun a b => a + b) SubDomain1D.none
    (vectors.map (fun v => v.subdomain))

/-- `VectorSpace::weighted_sum` for `WFBra`. -/
def WFBra.weighted_sum (summands : List (Complex32 × WFBra)) : WFBra where
  wavefunction := .weightedSum (summands.map (fun p => (p.1, p.2.wavefunction)))
  subdomain := listReduce (fun a b => a + b) SubDomain1D.none
    (summands.map (fun p => p.2.subdomain))

/-- `Ket::to_adjoint` for `WFKet`: wrap the operation in an `Adjoint` node;
the subdomain is carried through unchanged. -/
def WFKet.to_adjoint (k : WFKet) : WFBra where
  wavefunction := .adjoint k.wavefunction
  subdomain := k.subdomain

/-- `Ket::adjoint` for `WFKet` (the by-reference variant). -/
def WFKet.adjoint (k : WFKet) : WFBra where
  wavefunction := .adjoint k.wavefunction
  subdomain := k.subdomain

/-- `Bra::apply` for `WFBra` (the serial implementation, compiled without
the `par_braket` feature): integrate
`mul_to_codomain(step, bra.f · ket.f)` over the intersection of the two
subdomains, with `reduce(+).unwrap_or_else(zero)`. -/
def WFBra.apply (b : WFBra) (k : WFKet) (t : ℚ) : Complex32 :=
  let domain := k.subdomain * b.subdomain
  listReduce (fun a c => a + c) 0
    (domain.points.map (fun x => mul_to_codomain domain.step_size (b.f x t * k.f x t)))

/-- `Ket::norm_sqr` for `WFKet`: `adjoint(self).apply(self, t)`. -/
def WFKet.norm_sqr (k : WFKet) (t : ℚ) : Complex32 :=
  (WFKet.adjoint k).apply k t

/-! ## Eigenbasis evolution

`ConfinedPotential::evolution` (`potential/potential.rs`) and
`DiscreteSystem::evolution` (`discrete_system.rs`) are default trait
methods; they are embedded as functions taking the implementor's
`eigenstate` method as an argument. -/

/-- The inclusive integer range `min..=max`, as a list. -/
def intRange (lo hi : ℤ) : List ℤ :=
  (List.range (hi + 1 - lo).toNat).map (fun i => lo + i)

/-- `ConfinedPotential::evolution`: project the initial state onto
`eigenstate(1)..eigenstate(max_n)` at time `t0` and reconstruct by
`weighted_sum`. -/
def ConfinedPotential.evolution (eigenstate : ℕ → WFKet) (initial_state : WFKet)
    (t0 : ℚ) (max_n : ℕ) : WFKet :=
  WFKet.weighted_sum
    ((List.range max_n).map (fun j =>
      let basis_state := eigenstate (j + 1)
      ((WFKet.adjoint basis_state).apply initial_state t0, basis_state)))

/-- `DiscreteSystem::evolution`: the same algorithm over the index range
`min_n..=max_n`. -/
def DiscreteSystem.evolution (energy_eigenstate : ℤ → WFKet) (initial_state : WFKet)
    (t0 : ℚ) (min_n max_n : ℤ) : WFKet :=
  WFKet.weighted_sum
    ((intRange min_n max_n).map (fun i =>
      let basis_state := energy_eigenstate i
      ((WFKet.adjoint basis_state).apply initial_state t0, basis_state)))

/-! ## Parallel reduction model

The `par_braket` variant of `Bra::apply` maps
`mul_to_codomain(step, bra.f(x,t)) * ket.f(x,t)` over the same sample
points and combines the values with rayon's `reduce(zero, +)`, which is
free to split the sequence and combine partial sums in any association and
order.  A binary combination tree over a permutation of the mapped values
models every such schedule. -/

/-- A binary combination tree: the order/association in which a parallel
reduction combines its inputs. -/
inductive RedTree : Type where
  | leaf (v : Complex32)
  | node (l r : RedTree)

/-- The leaf sequence of a combination tree. -/
def RedTree.flatten : RedTree → List Complex32
  | .leaf v => [v]
  | .node l r => l.flatten ++ r.flatten

/-- Combine a tree with `+`, as a parallel reduction does. -/
def RedTree.combine : RedTree → Complex32
  | .leaf v => v
  | .node l r => l.combine + r.combine

/-! ## Concrete systems (`potential/infinite_square_well.rs`,
`discrete_system/two_state.rs`)

The closed-form eigenstate formulas involve transcendental functions
(`sin`, `sqrt`, `atan`, `cis`), so this section models `f32` as `ℝ` and
`Complex32` as `ℂ`.  The index-validation behaviour under scrutiny in the
error-handling claim is control flow and is independent of rounding. -/

open scoped Classical in
/-- `Wavefunction::f` of a `WFKet<WF1Space1Time>` over `ℝ`/`ℂ` whose
operation tree is a single `Function` leaf: the concrete potentials
construct their eigenstates as
`WFKet { wavefunction: WFOperation::func(...), subdomain }`, and `f` masks
the evaluation with the subdomain exactly as in `wf_ket.rs`. -/
noncomputable def ketF (wavefunction : ℝ → ℝ → ℂ) (subdomain : SubDomain1D ℝ)
    (x t : ℝ) : ℂ :=
  if subdomain.contains x then wavefunction x t else 0

/-- `Complex32::cis(θ) = exp(i θ)`. -/
noncomputable def cis (θ : ℝ) : ℂ := Complex.exp (θ * Complex.I)

/-- `eigenfunction` of `infinite_square_well.rs`:
`(2/width).sqrt() * sin(n π x / width) * cis(-Eₙ t / ħ)` with
`Eₙ = (n π ħ / width)² / (2 m)`. -/
noncomputable def iswEigenfunction (width mass hbar : ℝ) (n : ℕ) (x t : ℝ) : ℂ :=
  let energy := ((n : ℝ) * Real.pi * hbar / width) ^ 2 / (2 * mass)
  let coef := Real.sqrt (2 / width)
  let phase_x := (n : ℝ) * Real.pi * x / width
  (↑(coef * Real.sin phase_x) : ℂ) * cis (-energy * t / hbar)

/-- `InfiniteSquareWell` (`infinite_square_well.rs`). -/
structure InfiniteSquareWell where
  width : ℝ
  mass : ℝ
  hbar : ℝ
  step_size : ℝ

/-- `ConfinedPotential::eigenstate` for `InfiniteSquareWell`: note that the
source performs NO validation of `n` — the function is total and simply
instantiates `eigenfunction` at the requested index over the subdomain
`[0, width]`. -/
noncomputable def InfiniteSquareWell.eigenstate (w : InfiniteSquareWell) (n : ℕ) :
    (ℝ → ℝ → ℂ) × SubDomain1D ℝ :=
  (fun x t => iswEigenfunction w.width w.mass w.hbar n x t,
   ⟨0, w.width, w.step_size⟩)

/-- `Wavefunction::f` of the ket built by
`InfiniteSquareWell::eigenstate`. -/
noncomputable def InfiniteSquareWell.eigenstate_f (w : InfiniteSquareWell) (n : ℕ)
    (x t : ℝ) : ℂ :=
  ketF (w.eigenstate n).1 (w.eigenstate n).2 x t

/-- `TwoState` (`two_state.rs`). -/
structure TwoState where
  level_1 : ℝ
  level_2 : ℝ
  coupling : ℂ
  hbar : ℝ

/-- The ket value constructed by `TwoState::energy_eigenstate` after the
index check has passed (`n ∈ {0, 1}`): the body of the `WFKet::new`
closure together with its `FiniteSubDomain { 0, 1 }`. -/
noncomputable def twoStateEigenfunction (s : TwoState) (n : ℤ) (x : ℤ) (t : ℝ) : ℂ :=
  let delta := s.level_1 - s.level_2
  let v := Complex.abs s.coupling
  let theta := 0.5 * Real.arctan (2 * v / delta)
  let phase : ℂ := if v = 0 then 1 else s.coupling / (v : ℂ)
  let eigenstate : ℂ × ℂ :=
    if n = 0 then (⟨-Real.sin theta, 0⟩, phase * Real.cos theta)
    else (⟨Real.cos theta, 0⟩, phase * Real.sin theta)
  let split := Real.sqrt ((delta / 2) ^ 2 + Complex.abs s.coupling ^ 2) *
    (if n = 0 then -1 else 1)
  let mean_level := 0.5 * (s.level_1 + s.level_2)
  let energy := mean_level + split
  cis (-energy * t / s.hbar) * (if x = 0 then eigenstate.1 else eigenstate.2)

/-- `DiscreteSystem::energy_eigenstate` for `TwoState`: the source panics
(`panic!("Index of TwoState eigenstate invalid. ...")`) when
`n < 0 || n > 1`; the panic is modelled as `Option.none`. -/
noncomputable def TwoState.energy_eigenstate (s : TwoState) (n : ℤ) :
    Option ((ℤ → ℝ → ℂ) × FiniteSubDomain) :=
  if n < 0 ∨ n > 1 then Option.none
  else Option.some (fun x t => twoStateEigenfunction s n x t, ⟨0, 1⟩)

/-! ## Sample data used by the witness theorems -/

/-- A sample bra over `[0, 1]` with constant value `1`. -/
def bw : WFBra := ⟨.func (fun _ _ => ⟨1, 0⟩), ⟨0, 1, 1⟩⟩

/-- A sample ket over `[0, 1]` with constant value `i`. -/
def kw : WFKet := ⟨.func (fun _ _ => ⟨0, 1⟩), ⟨0, 1, 1⟩⟩

/-- The parallel-path integrand of `bw`/`kw` at time `0`. -/
def gw (x : ℚ) : Complex32 :=
  mul_to_codomain (kw.subdomain * bw.subdomain).step_size (bw.f x 0) * kw.f x 0

/-- A combination tree that sums the two sample values of `gw` in reversed
order. -/
def trw : RedTree := .node (.leaf (gw 1)) (.leaf (gw 0))

/-- A sample ket over `[0, 1]`, disjoint from `bd`. -/
def kd : WFKet := ⟨.func (fun _ _ => ⟨1, 0⟩), ⟨0, 1, 1⟩⟩

/-- A sample bra over `[2, 3]`, disjoint from `kd`. -/
def bd : WFBra := ⟨.func (fun _ _ => ⟨1, 0⟩), ⟨2, 3, 1⟩⟩

/-! # Theorems -/

/-! ## Supporting lemmas -/

theorem Complex32.ext {a b : Complex32} (hre : a.re = b.re) (him : a.im = b.im) :
    a = b := by
  cases a
  cases b
  cases hre
  cases him
  rfl

@[simp] theorem Complex32.zero_re : (0 : Complex32).re = 0 := rfl

@[simp] theorem Complex32.zero_im : (0 : Complex32).im = 0 := rfl

@[simp] theorem Complex32.add_re (a b : Complex32) : (a + b).re = a.re + b.re := rfl

@[simp] theorem Complex32.add_im (a b : Complex32) : (a + b).im = a.im + b.im := rfl

@[simp] theorem Complex32.mul_re (a b : Complex32) :
    (a * b).re = a.re * b.re - a.im * b.im := rfl

@[simp] theorem Complex32.mul_im (a b : Complex32) :
    (a * b).im = a.re * b.im + a.im * b.re := rfl

@[simp] theorem Complex32.conjugate_re (a : Complex32) : a.conjugate.re = a.re := rfl

@[simp] theorem Complex32.conjugate_im (a : Complex32) : a.conjugate.im = -a.im := rfl

@[simp] theorem mul_to_codomain_re (a : ℚ) (b : Complex32) :
    (mul_to_codomain a b).re = a * b.re := rfl

@[simp] theorem mul_to_codomain_im (a : ℚ) (b : Complex32) :
    (mul_to_codomain a b).im = a * b.im := rfl

/-- Folding the domain step into a product of field values may be done on
the first factor alone: `mul_to_codomain` is scalar multiplication, which
associates with the field multiplication. -/
theorem mul_to_codomain_mul (s : ℚ) (a c : Complex32) :
    mul_to_codomain s (a * c) = mul_to_codomain s a * c := by
  apply Complex32.ext <;> simp <;> ring

/-- `reduce(+).unwrap_or_else(zero)` computes the list sum. -/
theorem listReduce_add_eq_sum (l : List Complex32) :
    listReduce (fun a b => a + b) 0 l = l.sum := by
  cases l with
  | nil => rfl
  | cons a rest =>
    show rest.foldl (fun a b => a + b) a = (a :: rest).sum
    rw [List.sum_cons]
    induction rest generalizing a with
    | nil => simp
    | cons b rest ih =>
      rw [List.foldl_cons, ih (a + b), List.sum_cons, add_assoc]

/-- The source's `if a < b { a } else { b }` computes the minimum. -/
theorem if_lt_eq_min {α : Type} [LinearOrder α] (a b : α) :
    (if a < b then a else b) = min a b := by
  rcases lt_or_ge a b with h | h
  · rw [if_pos h, min_eq_left h.le]
  · rw [if_neg (not_lt.mpr h), min_eq_right h]

/-- The source's `if a > b { a } else { b }` computes the maximum. -/
theorem if_gt_eq_max {α : Type} [LinearOrder α] (a b : α) :
    (if a > b then a else b) = max a b := by
  rcases lt_or_ge b a with h | h
  · rw [if_pos h, max_eq_left h.le]
  · rw [if_neg (not_lt.mpr h), max_eq_right h]

theorem iterPointsFuel_of_gt {n : ℕ} {upper step value : ℚ} (h : value > upper) :
    iterPointsFuel n upper step value = [] := by
  cases n with
  | zero => rfl
  | succ n => simp [iterPointsFuel, h]

/-- The embedded sample sequence satisfies the iterator's defining
recurrence: stop when `lower > upper`, else yield `lower` and continue from
`lower + step_size`. -/
theorem SubDomain1D.points_loop (d : SubDomain1D ℚ) (hs : 0 < d.step_size) :
    d.points =
      if d.lower > d.upper then []
      else d.lower :: SubDomain1D.points ⟨d.lower + d.step_size, d.upper, d.step_size⟩ := by
  obtain ⟨l, u, s⟩ := d
  simp only [SubDomain1D.step_size] at hs
  simp only [SubDomain1D.points, SubDomain1D.sampleFuel, gt_iff_lt]
  by_cases hlu : u < l
  · simp [hlu, iterPointsFuel]
  · rw [if_neg hlu, if_neg hlu, if_pos hs, iterPointsFuel, if_neg hlu]
    congr 1
    by_cases h2 : u < l + s
    · have hf0 : (if u < l + s then (0 : ℕ)
          else if 0 < s then (⌊(u - (l + s)) / s⌋).toNat + 1 else 1) = 0 := by
        rw [if_pos h2]
      rw [hf0, iterPointsFuel_of_gt h2]
      rfl
    · have h2le : l + s ≤ u := not_lt.mp h2
      have hle : l ≤ u := not_lt.mp hlu
      have hfloor : ⌊(u - (l + s)) / s⌋ = ⌊(u - l) / s⌋ - 1 := by
        have hrw : (u - (l + s)) / s = (u - l) / s - 1 := by
          field_simp
          ring
        rw [hrw, Int.floor_sub_one]
      have hone : (1 : ℚ) ≤ (u - l) / s := by
        rw [le_div_iff₀ hs]
        linarith
      have hge : (1 : ℤ) ≤ ⌊(u - l) / s⌋ := Int.le_floor.mpr (by exact_mod_cast hone)
      have hfN : (if u < l + s then (0 : ℕ)
          else if 0 < s then (⌊(u - (l + s)) / s⌋).toNat + 1 else 1) =
          (⌊(u - l) / s⌋).toNat := by
        rw [if_neg h2, if_pos hs, hfloor]
        omega
      rw [hfN]

/-- A `SubDomain1D` iteration yields no points exactly when
`lower > upper`: the very first `next()` call checks only `value > upper`,
so whenever `lower ≤ upper` at least the point `lower` is yielded. -/
theorem SubDomain1D.points_eq_nil_iff (d : SubDomain1D ℚ) :
    d.points = [] ↔ d.upper < d.lower := by
  obtain ⟨l, u, s⟩ := d
  simp only [SubDomain1D.points, SubDomain1D.sampleFuel, gt_iff_lt]
  by_cases hlu : u < l
  · simp [hlu, iterPointsFuel]
  · rw [if_neg hlu]
    by_cases hs : 0 < s
    · rw [if_pos hs, iterPointsFuel, if_neg hlu]
      simp [hlu]
    · rw [if_neg hs, iterPointsFuel, if_neg hlu]
      simp [hlu]

theorem iterPointsIntFuel_of_gt {n : ℕ} {upper value : ℤ} (h : value > upper) :
    iterPointsIntFuel n upper value = [] := by
  cases n with
  | zero => rfl
  | succ n => simp [iterPointsIntFuel, h]

/-- The embedded `FiniteSubDomain` iteration satisfies the iterator's
defining recurrence. -/
theorem finiteSubDomain_points_loop (d : FiniteSubDomain) :
    d.points =
      if d.min_idx > d.max_idx then []
      else d.min_idx :: FiniteSubDomain.points ⟨d.min_idx + 1, d.max_idx⟩ := by
  obtain ⟨lo, hi⟩ := d
  simp only [FiniteSubDomain.points]
  by_cases h : lo > hi
  · rw [iterPointsIntFuel_of_gt h, if_pos h]
  · rw [if_neg h]
    simp only [gt_iff_lt, not_lt] at h
    have hfuel : (hi + 1 - lo).toNat = (hi + 1 - (lo + 1)).toNat + 1 := by omega
    rw [hfuel, iterPointsIntFuel, if_neg (not_lt.mpr h)]

/-- A `FiniteSubDomain` iteration yields no points exactly when
`min_idx > max_idx`. -/
theorem finiteSubDomain_points_eq_nil_iff (d : FiniteSubDomain) :
    d.points = [] ↔ d.max_idx < d.min_idx := by
  rw [finiteSubDomain_points_loop]
  by_cases h : d.max_idx < d.min_idx
  · simp [h]
  · simp [h]

/-- The sample sequence of the intersection of the sample subdomains:
`[0, 1]` with step `1`. -/
theorem sample_domain_points : (kw.subdomain * bw.subdomain).points = [0, 1] := by
  have hd : kw.subdomain * bw.subdomain = (⟨0, 1, 1⟩ : SubDomain1D ℚ) := by decide
  rw [hd]
  unfold SubDomain1D.points SubDomain1D.sampleFuel
  norm_num [iterPointsFuel]

/-- Combining a tree with `+` sums its leaf sequence. -/
theorem RedTree.combine_eq_sum (t : RedTree) : t.combine = t.flatten.sum := by
  induction t with
  | leaf v => simp [RedTree.flatten, RedTree.combine]
  | node l r ihl ihr =>
    simp [RedTree.flatten, RedTree.combine, List.sum_append, ihl, ihr]

/-! ## Claim theorems -/

/-- C1: `Bra::apply(bra, ket, t)` forms the integration domain `D` as the
`SubDomain` product (intersection) of the ket's and the bra's subdomains and
returns the sum over the sample points `x` of `D` of
`mul_to_codomain(D.step_size(), bra.f(x,t) * ket.f(x,t))`; whenever `D`
iterates zero points — in particular when `D.lower > D.upper` — it returns
exactly the field's zero. -/
theorem apply_integrates_over_intersection :
    ∀ (b : WFBra) (k : WFKet) (t : ℚ),
      b.apply k t = ((k.subdomain * b.subdomain).points.map
        (fun x => mul_to_codomain (k.subdomain * b.subdomain).step_size
          (b.f x t * k.f x t))).sum ∧
      ((k.subdomain * b.subdomain).points = [] → b.apply k t = 0) ∧
      ((k.subdomain * b.subdomain).upper < (k.subdomain * b.subdomain).lower →
        b.apply k t = 0) := by
  intro b k t
  have h1 : b.apply k t = ((k.subdomain * b.subdomain).points.map
      (fun x => mul_to_codomain (k.subdomain * b.subdomain).step_size
        (b.f x t * k.f x t))).sum := by
    unfold WFBra.apply
    exact listReduce_add_eq_sum _
  refine ⟨h1, ?_, ?_⟩
  · intro hnil
    rw [h1, hnil]
    rfl
  · intro hlt
    rw [h1, (SubDomain1D.points_eq_nil_iff _).mpr hlt]
    rfl

/-- C1 witness: a concrete bra over `[2,3]` applied to a concrete ket over
`[0,1]` has an empty intersection domain and yields exactly zero. -/
theorem apply_integrates_over_intersection_witness :
    (kd.subdomain * bd.subdomain).upper < (kd.subdomain * bd.subdomain).lower ∧
    bd.apply kd 0 = 0 :=
  ⟨by decide, (apply_integrates_over_intersection bd kd 0).2.2 (by decide)⟩

/-- C2 counterexample: `VectorSpace::sum` on an empty vector of kets
produces subdomain `SubDomain::none()`, which differs from the
`SubDomain::all()` carried by `WFKet`'s `VectorSpace::zero()` — so the
claimed `all()` subdomain for the empty ket case is false. -/
theorem empty_ket_sum_subdomain_ne_all :
    (WFKet.sum []).subdomain = SubDomain1D.none ∧
    (WFKet.sum []).subdomain ≠ WFKet.zero.subdomain := by
  refine ⟨rfl, ?_⟩
  intro h
  have hl : f32Zero = f32First := congrArg SubDomain1D.lower h
  unfold f32Zero f32First at hl
  norm_num at hl

/-- C2 (amended): `sum`/`weighted_sum` on an empty vector return, for both
kets and bras, a wavefunction evaluating to the field's zero everywhere
whose subdomain is `SubDomain::none()`; for bras this coincides with
`VectorSpace::zero()`, but `WFKet`'s `zero()` carries `SubDomain::all()`,
so the empty ket sum differs from `zero()` in its subdomain while still
evaluating to zero everywhere. -/
theorem empty_sum_weighted_sum_zero :
    (WFKet.sum []).subdomain = SubDomain1D.none ∧
    (WFKet.weighted_sum []).subdomain = SubDomain1D.none ∧
    (WFBra.sum []).subdomain = SubDomain1D.none ∧
    (WFBra.weighted_sum []).subdomain = SubDomain1D.none ∧
    WFKet.zero.subdomain = SubDomain1D.all ∧
    WFBra.zero.subdomain = SubDomain1D.none ∧
    (∀ x t : ℚ,
      (WFKet.sum []).f x t = 0 ∧ (WFKet.weighted_sum []).f x t = 0 ∧
      (WFBra.sum []).f x t = 0 ∧ (WFBra.weighted_sum []).f x t = 0 ∧
      WFKet.zero.f x t = 0 ∧ WFBra.zero.f x t = 0) := by
  refine ⟨rfl, rfl, rfl, rfl, rfl, rfl, ?_⟩
  intro x t
  have hket : ∀ v : WFKet, v.wavefunction.eval x t = 0 → v.f x t = 0 := by
    intro v hv
    unfold WFKet.f
    split
    · exact hv
    · rfl
  have hbra : ∀ v : WFBra, v.wavefunction.eval x t = 0 → v.f x t = 0 := by
    intro v hv
    unfold WFBra.f
    split
    · exact hv
    · rfl
  have hsum : (WFOperation.sum []).eval x t = 0 := by
    simp [WFOperation.eval]
  have hwsum : (WFOperation.weightedSum []).eval x t = 0 := by
    simp [WFOperation.eval]
  have hfunc : (WFOperation.func (fun _ _ => 0)).eval x t = 0 := by
    simp [WFOperation.eval]
  exact ⟨hket _ hsum, hket _ hwsum, hbra _ hsum, hbra _ hwsum,
    hket _ hfunc, hbra _ hfunc⟩

/-- C4: `SubDomain1D` addition is the union rule
(`min` of lowers, `max` of uppers, `min` of steps), multiplication is the
intersection rule (`max` of lowers, `min` of uppers, `min` of steps), the
intersection contains a point exactly when both operands do, and an
intersection with `lower > upper` iterates no points. -/
theorem subdomain_union_intersection_spec :
    ∀ A B : SubDomain1D ℚ,
      A + B = ⟨min A.lower B.lower, max A.upper B.upper,
        min A.step_size B.step_size⟩ ∧
      A * B = ⟨max A.lower B.lower, min A.upper B.upper,
        min A.step_size B.step_size⟩ ∧
      (∀ x : ℚ, (A * B).contains x ↔ A.contains x ∧ B.contains x) ∧
      ((A * B).upper < (A * B).lower → (A * B).points = []) := by
  intro A B
  have hadd : A + B = ⟨min A.lower B.lower, max A.upper B.upper,
      min A.step_size B.step_size⟩ := by
    show SubDomain1D.add A B = _
    unfold SubDomain1D.add
    rw [if_lt_eq_min, if_gt_eq_max, if_lt_eq_min]
  have hmul : A * B = ⟨max A.lower B.lower, min A.upper B.upper,
      min A.step_size B.step_size⟩ := by
    show SubDomain1D.mul A B = _
    unfold SubDomain1D.mul
    rw [if_gt_eq_max, if_lt_eq_min, if_lt_eq_min]
  refine ⟨hadd, hmul, ?_, ?_⟩
  · intro x
    rw [hmul]
    unfold SubDomain1D.contains
    simp only [max_le_iff, le_min_iff]
    tauto
  · intro h
    exact (SubDomain1D.points_eq_nil_iff _).mpr h

/-- C4 witness: the intersection of the disjoint subdomains `[0,1]` and
`[2,3]` has `lower > upper` and iterates no points. -/
theorem subdomain_union_intersection_spec_witness :
    ((⟨0, 1, 1⟩ : SubDomain1D ℚ) * ⟨2, 3, 1⟩).upper <
      ((⟨0, 1, 1⟩ : SubDomain1D ℚ) * ⟨2, 3, 1⟩).lower ∧
    ((⟨0, 1, 1⟩ : SubDomain1D ℚ) * ⟨2, 3, 1⟩).points = [] :=
  ⟨by decide,
   (subdomain_union_intersection_spec ⟨0, 1, 1⟩ ⟨2, 3, 1⟩).2.2.2 (by decide)⟩

/-- C5: `evolution` computes, for each index `n` of the requested range, the
coefficient `cₙ` as the inner product of the adjoint of `eigenstate(n)` with
the initial state at time `t0`, and returns exactly the
`VectorSpace::weighted_sum` of the pairs `(cₙ, eigenstate(n))` in index
order — for `ConfinedPotential::evolution` (range `1..=max_n`) and
`DiscreteSystem::evolution` (range `min_n..=max_n`) alike; the second and
fourth conjuncts unfold `weighted_sum` to the underlying `WeightedSum`
operation node carrying those very coefficient/operand pairs. -/
theorem evolution_weighted_sum_of_coefficients :
    ∀ (eigenstate : ℕ → WFKet) (energy_eigenstate : ℤ → WFKet)
      (psi : WFKet) (t0 : ℚ) (max_n : ℕ) (lo hi : ℤ),
      ConfinedPotential.evolution eigenstate psi t0 max_n =
        WFKet.weighted_sum ((List.range max_n).map (fun j =>
          ((WFKet.adjoint (eigenstate (j + 1))).apply psi t0,
            eigenstate (j + 1)))) ∧
      (ConfinedPotential.evolution eigenstate psi t0 max_n).wavefunction =
        .weightedSum ((List.range max_n).map (fun j =>
          ((WFKet.adjoint (eigenstate (j + 1))).apply psi t0,
            (eigenstate (j + 1)).wavefunction))) ∧
      DiscreteSystem.evolution energy_eigenstate psi t0 lo hi =
        WFKet.weighted_sum ((intRange lo hi).map (fun i =>
          ((WFKet.adjoint (energy_eigenstate i)).apply psi t0,
            energy_eigenstate i))) ∧
      (DiscreteSystem.evolution energy_eigenstate psi t0 lo hi).wavefunction =
        .weightedSum ((intRange lo hi).map (fun i =>
          ((WFKet.adjoint (energy_eigenstate i)).apply psi t0,
            (energy_eigenstate i).wavefunction))) := by
  intro eigenstate energy_eigenstate psi t0 max_n lo hi
  refine ⟨rfl, ?_, rfl, ?_⟩
  · show (WFKet.weighted_sum _).wavefunction = _
    unfold WFKet.weighted_sum
    rw [List.map_map]
    rfl
  · show (WFKet.weighted_sum _).wavefunction = _
    unfold WFKet.weighted_sum
    rw [List.map_map]
    rfl

/-- C6: the adjoint is an involution — `to_adjoint` wraps the operation in
an `Adjoint` node and carries the subdomain through unchanged (as does
`adjoint`), wrapping the result in `Adjoint` again evaluates identically to
the original ket at every point, field conjugation satisfies
`conjugate(conjugate(v)) = v`, and conjugation on the real field is the
identity. -/
theorem adjoint_involution :
    ∀ (k : WFKet) (x t : ℚ),
      (WFKet.mk (WFOperation.adjoint k.to_adjoint.wavefunction)
        k.to_adjoint.subdomain).f x t = k.f x t ∧
      k.to_adjoint.subdomain = k.subdomain ∧
      (WFKet.adjoint k).subdomain = k.subdomain ∧
      (∀ v : Complex32, v.conjugate.conjugate = v) ∧
      (∀ r : ℚ, realConjugate r = r) := by
  intro k x t
  have hconj : ∀ v : Complex32, v.conjugate.conjugate = v := by
    intro v
    apply Complex32.ext <;> simp
  refine ⟨?_, rfl, rfl, hconj, fun r => rfl⟩
  show (if k.subdomain.contains x then
      (WFOperation.adjoint (WFOperation.adjoint k.wavefunction)).eval x t else 0)
    = (if k.subdomain.contains x then k.wavefunction.eval x t else 0)
  have he : (WFOperation.adjoint (WFOperation.adjoint k.wavefunction)).eval x t
      = k.wavefunction.eval x t := by
    simp only [WFOperation.eval]
    exact hconj _
  rw [he]

/-- C7: `translate_space(k, dx)` evaluates as `k.f(x - dx, t)` at every
point, and its subdomain has both bounds shifted by `dx` with the step size
unchanged. -/
theorem translate_space_spec :
    ∀ (k : WFKet) (dx x t : ℚ),
      (k.translate_space dx).f x t = k.f (x - dx) t ∧
      (k.translate_space dx).subdomain.lower = k.subdomain.lower + dx ∧
      (k.translate_space dx).subdomain.upper = k.subdomain.upper + dx ∧
      (k.translate_space dx).subdomain.step_size = k.subdomain.step_size := by
  intro k dx x t
  refine ⟨?_, rfl, rfl, rfl⟩
  have he : (WFOperation.translateSpace dx k.wavefunction).eval x t
      = k.wavefunction.eval (x - dx) t := by
    simp only [WFOperation.eval]
  have hc : (k.translate_space dx).subdomain.contains x ↔
      k.subdomain.contains (x - dx) := by
    show (k.subdomain.lower + dx ≤ x ∧ x ≤ k.subdomain.upper + dx) ↔
      (k.subdomain.lower ≤ x - dx ∧ x - dx ≤ k.subdomain.upper)
    constructor <;> rintro ⟨h1, h2⟩ <;> constructor <;> linarith
  show (if (k.translate_space dx).subdomain.contains x then
      (WFOperation.translateSpace dx k.wavefunction).eval x t else 0)
    = (if k.subdomain.contains (x - dx) then k.wavefunction.eval (x - dx) t else 0)
  exact if_congr hc he rfl

/-- C8: for kets and bras alike, `f` evaluates the operation tree inside
the subdomain and is the field's zero outside it (a hard truncation mask),
and `p` equals `conjugate(f)·f` everywhere — in particular zero outside the
subdomain. -/
theorem wavefunction_mask_spec :
    ∀ (k : WFKet) (b : WFBra) (x t : ℚ),
      (k.subdomain.contains x → k.f x t = k.wavefunction.eval x t) ∧
      (¬k.subdomain.contains x → k.f x t = 0) ∧
      k.p x t = (k.f x t).conjugate * k.f x t ∧
      (b.subdomain.contains x → b.f x t = b.wavefunction.eval x t) ∧
      (¬b.subdomain.contains x → b.f x t = 0) ∧
      b.p x t = (b.f x t).conjugate * b.f x t := by
  intro k b x t
  have hzero : (0 : Complex32).conjugate * 0 = 0 := by
    apply Complex32.ext <;> simp
  refine ⟨?_, ?_, ?_, ?_, ?_, ?_⟩
  · intro h
    unfold WFKet.f
    rw [if_pos h]
  · intro h
    unfold WFKet.f
    rw [if_neg h]
  · unfold WFKet.p
    by_cases h : k.subdomain.contains x
    · rw [if_pos h]
    · rw [if_neg h]
      unfold WFKet.f
      rw [if_neg h, hzero]
  · intro h
    unfold WFBra.f
    rw [if_pos h]
  · intro h
    unfold WFBra.f
    rw [if_neg h]
  · unfold WFBra.p
    by_cases h : b.subdomain.contains x
    · rw [if_pos h]
    · rw [if_neg h]
      unfold WFBra.f
      rw [if_neg h, hzero]

/-- C8 witness: the sample ket/bra over `[0,1]` evaluate via their operation
tree at the contained point `x = 0` and to zero at the excluded point
`x = 2`. -/
theorem wavefunction_mask_spec_witness :
    kw.subdomain.contains 0 ∧ kw.f 0 0 = kw.wavefunction.eval 0 0 ∧
    ¬kw.subdomain.contains 2 ∧ kw.f 2 0 = 0 ∧
    bw.subdomain.contains 0 ∧ bw.f 0 0 = bw.wavefunction.eval 0 0 ∧
    ¬bw.subdomain.contains 2 ∧ bw.f 2 0 = 0 :=
  ⟨by decide, (wavefunction_mask_spec kw bw 0 0).1 (by decide),
   by decide, (wavefunction_mask_spec kw bw 2 0).2.1 (by decide),
   by decide, (wavefunction_mask_spec kw bw 0 0).2.2.2.1 (by decide),
   by decide, (wavefunction_mask_spec kw bw 2 0).2.2.2.2.1 (by decide)⟩

/-- C9: over exact field arithmetic the parallel `apply` (mapping
`mul_to_codomain(step, bra.f) * ket.f` and reducing with an arbitrary
combination order, modelled by any binary tree over any permutation of the
mapped sample values) equals the serial `apply` (mapping
`mul_to_codomain(step, bra.f * ket.f)` and reducing left-to-right). -/
theorem serial_parallel_apply_equivalence :
    ∀ (b : WFBra) (k : WFKet) (t : ℚ) (tr : RedTree),
      tr.flatten.Perm ((k.subdomain * b.subdomain).points.map
        (fun x => mul_to_codomain (k.subdomain * b.subdomain).step_size (b.f x t)
          * k.f x t)) →
      tr.combine = b.apply k t := by
  intro b k t tr hperm
  rw [RedTree.combine_eq_sum, hperm.sum_eq]
  have hmap : ((k.subdomain * b.subdomain).points.map
      (fun x => mul_to_codomain (k.subdomain * b.subdomain).step_size (b.f x t)
        * k.f x t))
      = ((k.subdomain * b.subdomain).points.map
      (fun x => mul_to_codomain (k.subdomain * b.subdomain).step_size
        (b.f x t * k.f x t))) := by
    refine List.map_congr_left ?_
    intro a _
    exact (mul_to_codomain_mul _ _ _).symm
  rw [hmap]
  unfold WFBra.apply
  exact (listReduce_add_eq_sum _).symm

/-- C9 witness: a combination tree summing the two sample values in
reversed order still equals the serial inner product of the sample bra and
ket. -/
theorem serial_parallel_apply_equivalence_witness :
    trw.flatten.Perm ((kw.subdomain * bw.subdomain).points.map gw) ∧
    trw.combine = bw.apply kw 0 := by
  have hperm : trw.flatten.Perm ((kw.subdomain * bw.subdomain).points.map gw) := by
    rw [sample_domain_points]
    exact List.Perm.swap (gw 0) (gw 1) []
  exact ⟨hperm, serial_parallel_apply_equivalence bw kw 0 trw hperm⟩

/-- C10: the `none()` constructors are not empty at the interface —
`SubDomain1D::none()` is `[zero, zero]` (step `last()`) and
`FiniteSubDomain::none()` is `{0..=0}`, both contain the domain's zero, and
both iterate exactly one sample point (the zero), because iteration stops
only when the cursor strictly exceeds the upper bound; an iteration yields
zero points exactly when `lower > upper`. -/
theorem none_subdomain_not_empty :
    SubDomain1D.none = ⟨f32Zero, f32Zero, f32Last⟩ ∧
    SubDomain1D.none.contains f32Zero ∧
    SubDomain1D.none.points = [f32Zero] ∧
    FiniteSubDomain.none = ⟨0, 0⟩ ∧
    FiniteSubDomain.none.contains 0 ∧
    FiniteSubDomain.none.points = [0] ∧
    (∀ d : SubDomain1D ℚ, d.points = [] ↔ d.upper < d.lower) ∧
    (∀ d : FiniteSubDomain, d.points = [] ↔ d.max_idx < d.min_idx) := by
  have hqpts : SubDomain1D.none.points = [f32Zero] := by
    unfold SubDomain1D.points SubDomain1D.sampleFuel SubDomain1D.none f32Zero f32Last
    norm_num [iterPointsFuel]
  exact ⟨rfl, by decide, hqpts, rfl, by decide, by decide,
    SubDomain1D.points_eq_nil_iff, finiteSubDomain_points_eq_nil_iff⟩

/-- C3: querying an eigenstate index outside a system's support —
`TwoState::energy_eigenstate` fails (panics, modelled as `Option.none`)
exactly when `n ∉ {0, 1}`; but `InfiniteSquareWell::eigenstate` performs no
index validation at all and at the unsupported index `n = 0` silently
returns a ket that evaluates to zero at every point, contradicting the
claimed loud-failure policy. -/
theorem eigenstate_index_validation :
    (∀ (s : TwoState) (n : ℤ),
      s.energy_eigenstate n = Option.none ↔ (n < 0 ∨ 1 < n)) ∧
    (∀ (w : InfiniteSquareWell) (x t : ℝ), w.eigenstate_f 0 x t = 0) := by
  constructor
  · intro s n
    unfold TwoState.energy_eigenstate
    by_cases h : n < 0 ∨ n > 1
    · simp [h]
    · simp only [if_neg h]
      simp only [gt_iff_lt] at h
      simp [h]
  · intro w x t
    unfold InfiniteSquareWell.eigenstate_f ketF
    split
    · show iswEigenfunction w.width w.mass w.hbar 0 x t = 0
      unfold iswEigenfunction
      simp
    · rfl

end Qwaviz
